import Mathlib

/-!
Shallow embedding of the NTM breadth-first simulator found in
`FinalTracing.py` and `Tracing_PabloOlivaQuintana.py`.

Tape segments are Python strings, modelled as `List Char`; control states
and transition fields that are compared as whole strings are modelled as
`String` or `List Char` exactly as the source compares them.  The two
scripts share the configuration model and successor construction and
differ only in the termination policy of `simulate_ntm` and in
`calculate_nondeterminism`; the suffix `F` marks the `FinalTracing.py`
variant and `T` the `Tracing_PabloOlivaQuintana.py` variant.
-/

/-- A transition rule, as parsed by `parse_ntm_file`: one CSV row
`(current_state, input_symbol, next_state, write_symbol, move_direction)`.
The symbol fields are Python strings, so they are `List Char` here. -/
structure Transition where
  current_state : String
  input_symbol : List Char
  next_state : String
  write_symbol : List Char
  move_direction : List Char
deriving DecidableEq

/-- The machine fields of the dictionary returned by `parse_ntm_file` that
the simulation engine reads (name and alphabets are never consulted by
`simulate_ntm`). -/
structure Machine where
  start_state : String
  accept_state : String
  reject_state : String
  transitions : List Transition
deriving DecidableEq

/-- The `Configuration` class: tape left of the head, control state, and
tape under-and-right of the head. -/
structure Configuration where
  left : List Char
  state : String
  right : List Char
deriving DecidableEq

/-- The head symbol as the source reads it: `(config.right or "_")[0]`,
i.e. the first element of `right`, or the blank `'_'` when `right` is
empty. -/
def headSymbol (c : Configuration) : Char :=
  match c.right with
  | [] => '_'
  | h :: _ => h

/-- The transition guard of the inner loop:
`config.state == transition["current_state"] and
 (config.right or "_")[0] == transition["input_symbol"]`.
The second comparison in Python compares the one-character string holding
the head symbol with the whole `input_symbol` string. -/
def transMatches (c : Configuration) (t : Transition) : Bool :=
  c.state == t.current_state && [headSymbol c] == t.input_symbol

/-- Successor construction for one matching transition:
`new_left  = config.left + (config.right[0] if config.right else "_")`,
`new_right = (config.right[1:] if len(config.right) > 1 else "") + "_"`,
and for `move_direction == "L"` the simultaneous update
`new_left, new_right = new_left[:-1], new_left[-1] + new_right`.
Indexing `new_left[-1]` would raise on an empty list, which is modelled by
returning `none` in that case. -/
def applyTransition (c : Configuration) (t : Transition) : Option Configuration :=
  let new_left := c.left ++ (match c.right with | [] => ['_'] | h :: _ => [h])
  let new_right := (if 1 < c.right.length then c.right.tail else []) ++ ['_']
  if t.move_direction = ['L'] then
    match new_left.getLast? with
    | none => none
    | some x => some ⟨new_left.dropLast, t.next_state, x :: new_right⟩
  else
    some ⟨new_left, t.next_state, new_right⟩

/-- All successors the engine enqueues for a dequeued configuration, in
transition-list order (the `for transition in ntm["transitions"]` loop). -/
def successors (ntm : Machine) (c : Configuration) : List Configuration :=
  ntm.transitions.filterMap (fun t => if transMatches c t then applyTransition c t else none)

/-- The out-degree of a configuration: the number of transitions whose
guard matches it. -/
def outDegree (ntm : Machine) (c : Configuration) : Nat :=
  (ntm.transitions.filter (fun t => transMatches c t)).length

/-- Sum of out-degrees over a list of configurations. -/
def sumOutDegree (ntm : Machine) (q : List Configuration) : Nat :=
  (q.map (outDegree ntm)).sum

/-- The initial configuration `Configuration("", ntm["start_state"], input_string)`. -/
def initConfig (ntm : Machine) (input : List Char) : Configuration :=
  ⟨[], ntm.start_state, input⟩

/-- Outcome of processing one BFS level in `FinalTracing.py`: either the
early `return explored` on an accept state, or the explored list and the
next-level queue. -/
inductive LevelOutF
  | accepted (explored : List Configuration)
  | next (explored : List Configuration) (queue : List Configuration)
deriving DecidableEq

/-- The inner `for _ in range(current_level)` loop of `FinalTracing.py`:
dequeue each configuration of the level in order, append it to `explored`,
return at once on the accept state, skip expansion (`continue`) on the
reject state, and otherwise append its successors to the next-level
queue. -/
def runLevelF (ntm : Machine) : List Configuration → List Configuration → List Configuration → LevelOutF
  | [], explored, out => .next explored out
  | c :: rest, explored, out =>
    if c.state = ntm.accept_state then .accepted (explored ++ [c])
    else if c.state = ntm.reject_state then runLevelF ntm rest (explored ++ [c]) out
    else runLevelF ntm rest (explored ++ [c]) (out ++ successors ntm c)

/-- The observable outcome of `FinalTracing.py`'s `simulate_ntm`: the
early return printing `String accepted in {steps} steps!`, or the final
return printing `Execution stopped after {steps} steps (max depth
reached).` -/
inductive SimResultF
  | accepted (explored : List Configuration) (steps : Nat)
  | stopped (explored : List Configuration) (steps : Nat)
deriving DecidableEq

/-- Explored trace of a `FinalTracing.py` result. -/
def SimResultF.explored : SimResultF → List Configuration
  | .accepted e _ => e
  | .stopped e _ => e

/-- Number of BFS levels processed, per a `FinalTracing.py` result. -/
def SimResultF.steps : SimResultF → Nat
  | .accepted _ s => s
  | .stopped _ s => s

/-- The `while queue and steps < max_depth` loop of `FinalTracing.py`.
The loop guard is the source's `queue and steps < max_depth`; the extra
`fuel` argument only makes the recursion structural.  It is initialised
to `max_depth` while `steps` starts at 0 and increases by one per
iteration, so the guard `steps < max_depth` always fails by the time
`fuel` reaches 0, and the 0-fuel equation returns exactly what the failed
guard returns. -/
def simLoopF (ntm : Machine) (max_depth : Nat) : Nat → List Configuration → List Configuration → Nat → SimResultF
  | 0, _, explored, steps => .stopped explored steps
  | fuel + 1, queue, explored, steps =>
    if queue ≠ [] ∧ steps < max_depth then
      match runLevelF ntm queue explored [] with
      | .accepted e => .accepted e steps
      | .next e q => simLoopF ntm max_depth fuel q e (steps + 1)
    else .stopped explored steps

/-- `simulate_ntm` of `FinalTracing.py` (default `max_depth=50`). -/
def simulate_ntmF (ntm : Machine) (input : List Char) (max_depth : Nat) : SimResultF :=
  simLoopF ntm max_depth max_depth [initConfig ntm input] [] 0

/-- Outcome of processing one BFS level in `Tracing_PabloOlivaQuintana.py`:
an early `return explored, "accept"/"reject", steps` (the result string
recorded here), or the explored list and next-level queue. -/
inductive LevelOutT
  | halted (explored : List Configuration) (result : String)
  | next (explored : List Configuration) (queue : List Configuration)
deriving DecidableEq

/-- The inner level loop of `Tracing_PabloOlivaQuintana.py`: return at
once with `"accept"` on the accept state, with `"reject"` on the reject
state, and otherwise expand. -/
def runLevelT (ntm : Machine) : List Configuration → List Configuration → List Configuration → LevelOutT
  | [], explored, out => .next explored out
  | c :: rest, explored, out =>
    if c.state = ntm.accept_state then .halted (explored ++ [c]) "accept"
    else if c.state = ntm.reject_state then .halted (explored ++ [c]) "reject"
    else runLevelT ntm rest (explored ++ [c]) (out ++ successors ntm c)

/-- The `while queue and steps < max_depth` loop of
`Tracing_PabloOlivaQuintana.py`; returns `(explored, result, steps)` just
like the Python function.  The `fuel` argument plays the same purely
structural role as in `simLoopF`. -/
def simLoopT (ntm : Machine) (max_depth : Nat) : Nat → List Configuration → List Configuration → Nat → List Configuration × String × Nat
  | 0, _, explored, steps => (explored, "timed out", steps)
  | fuel + 1, queue, explored, steps =>
    if queue ≠ [] ∧ steps < max_depth then
      match runLevelT ntm queue explored [] with
      | .halted e r => (e, r, steps)
      | .next e q => simLoopT ntm max_depth fuel q e (steps + 1)
    else (explored, "timed out", steps)

/-- `simulate_ntm` of `Tracing_PabloOlivaQuintana.py` (default
`max_depth=1000000`). -/
def simulate_ntmT (ntm : Machine) (input : List Char) (max_depth : Nat) : List Configuration × String × Nat :=
  simLoopT ntm max_depth max_depth [initConfig ntm input] [] 0

/-- `calculate_nondeterminism` of `FinalTracing.py`:
`len(explored) / len(set(config.state for config in explored))`, with the
float division modelled over `ℚ`. -/
def calculate_nondeterminismF (explored : List Configuration) : ℚ :=
  (explored.length : ℚ) / ((explored.map (fun c => c.state)).dedup.length : ℚ)

/-- `calculate_nondeterminism` of `Tracing_PabloOlivaQuintana.py`:
`len(explored) / depth if depth > 0 else 0`. -/
def calculate_nondeterminismT (explored : List Configuration) (depth : Nat) : ℚ :=
  if 0 < depth then (explored.length : ℚ) / (depth : ℚ) else 0

/-! ### Helper lemmas about the successor construction -/

lemma applyTransition_isSome (c : Configuration) (t : Transition) :
    (applyTransition c t).isSome := by
  rcases c with ⟨l, s, r⟩
  cases r with
  | nil =>
    by_cases hL : t.move_direction = ['L'] <;>
      simp [applyTransition, hL, List.getLast?_concat]
  | cons h rest =>
    by_cases hL : t.move_direction = ['L'] <;>
      simp [applyTransition, hL, List.getLast?_concat]

lemma applyTransition_right_shape (c : Configuration) (t : Transition) (c2 : Configuration)
    (h : applyTransition c t = some c2) :
    ∃ l, c2.right = l ++ ['_'] := by
  rcases c with ⟨cl, cs, cr⟩
  cases cr with
  | nil =>
    by_cases hL : t.move_direction = ['L']
    · simp only [applyTransition, hL, if_pos, List.getLast?_concat] at h
      obtain ⟨rfl⟩ := Option.some.inj h
      exact ⟨['_'], rfl⟩
    · simp only [applyTransition, if_neg hL] at h
      obtain ⟨rfl⟩ := Option.some.inj h
      exact ⟨[], rfl⟩
  | cons hd tl =>
    by_cases hL : t.move_direction = ['L']
    · simp only [applyTransition, hL, if_pos, List.getLast?_concat] at h
      obtain ⟨rfl⟩ := Option.some.inj h
      exact ⟨hd :: (if 1 < (hd :: tl).length then (hd :: tl).tail else []), rfl⟩
    · simp only [applyTransition, if_neg hL] at h
      obtain ⟨rfl⟩ := Option.some.inj h
      exact ⟨(if 1 < (hd :: tl).length then (hd :: tl).tail else []), rfl⟩

/-! ### Claim theorems: successor construction -/

/-- A machine whose single transition reads 'a' but writes 'b'. -/
def M1 : Machine := ⟨"q0", "qa", "qr", [⟨"q0", ['a'], "q1", ['b'], ['R']⟩]⟩

/-- C1: the claim says every successor's left tape is the predecessor's
left tape with the transition's write_symbol appended.  The code instead
appends the symbol read under the head and never consults write_symbol:
on M1, whose only transition reads 'a' and has write_symbol 'b', the only
enqueued successor of ([], q0, "a") has left tape ['a'], not ['b']. -/
theorem C1_write_symbol_ignored :
    successors M1 ⟨[], "q0", ['a']⟩ = [⟨['a'], "q1", ['_']⟩]
    ∧ M1.transitions.map (fun t => t.write_symbol) = [['b']]
    ∧ (⟨['a'], "q1", ['_']⟩ : Configuration).left ≠ [] ++ ['b'] := by decide

/-- C7: constructing a successor never errors, for any configuration and
transition: the list whose last element the Left branch pops is
`config.left` with one symbol just appended, so the pop always succeeds
and `applyTransition` always returns a configuration. -/
theorem C7_left_move_pop_safe (c : Configuration) (t : Transition) :
    ∃ c2, applyTransition c t = some c2 :=
  Option.isSome_iff_exists.mp (applyTransition_isSome c t)

/-- C9: the engine only distinguishes the literal direction "L"; any
transition whose move_direction is not "L" matches and produces exactly
what the same transition with direction "R" would. -/
theorem C9_nonleft_collapses_to_right (c : Configuration) (t : Transition)
    (h : t.move_direction ≠ ['L']) :
    applyTransition c t
      = applyTransition c ⟨t.current_state, t.input_symbol, t.next_state, t.write_symbol, ['R']⟩
    ∧ transMatches c t
      = transMatches c ⟨t.current_state, t.input_symbol, t.next_state, t.write_symbol, ['R']⟩ := by
  constructor
  · simp [applyTransition, h]
  · rfl

/-- Witness for C9 at the concrete direction "X". -/
theorem C9_witness :
    applyTransition ⟨[], "q0", ['a']⟩ ⟨"q0", ['a'], "q1", ['b'], ['X']⟩
      = applyTransition ⟨[], "q0", ['a']⟩ ⟨"q0", ['a'], "q1", ['b'], ['R']⟩
    ∧ transMatches ⟨[], "q0", ['a']⟩ ⟨"q0", ['a'], "q1", ['b'], ['X']⟩
      = transMatches ⟨[], "q0", ['a']⟩ ⟨"q0", ['a'], "q1", ['b'], ['R']⟩ :=
  C9_nonleft_collapses_to_right ⟨[], "q0", ['a']⟩ ⟨"q0", ['a'], "q1", ['b'], ['X']⟩ (by decide)

/-- C6: the head symbol used for matching is `right`'s first element when
`right` is non-empty and the blank '_' otherwise, so a configuration with
empty `right` matches exactly the transitions matched by the same
configuration with `right = "_"`. -/
theorem C6_blank_head (ntm : Machine) (c : Configuration) :
    (c.right = [] →
      ntm.transitions.filter (fun t => transMatches c t)
        = ntm.transitions.filter (fun t => transMatches ⟨c.left, c.state, ['_']⟩ t))
    ∧ (c.right = [] → headSymbol c = '_')
    ∧ (∀ h rest, c.right = h :: rest → headSymbol c = h) := by
  rcases c with ⟨cl, cs, cr⟩
  refine ⟨?_, ?_, ?_⟩
  · intro hr
    cases hr
    rfl
  · intro hr
    cases hr
    rfl
  · intro h rest hr
    cases hr
    rfl

/-- Witness for C6 on a configuration with empty right tape. -/
theorem C6_witness :
    M1.transitions.filter (fun t => transMatches ⟨[], "q0", []⟩ t)
      = M1.transitions.filter (fun t => transMatches ⟨[], "q0", ['_']⟩ t)
    ∧ headSymbol ⟨[], "q0", []⟩ = '_' :=
  ⟨(C6_blank_head M1 ⟨[], "q0", []⟩).1 rfl, (C6_blank_head M1 ⟨[], "q0", []⟩).2.1 rfl⟩

/-- C10: every successor the engine ever enqueues has a non-empty right
tape ending in the blank '_'; the initial configuration's right tape is
the raw input string, so the blank-synthesis fallback of `headSymbol` can
only trigger on the initial configuration of an empty input. -/
theorem C10_enqueued_right_blank_tail (ntm : Machine) (c c2 : Configuration)
    (h : c2 ∈ successors ntm c) :
    c2.right ≠ [] ∧ c2.right.getLast? = some '_'
    ∧ ∀ input : List Char, (initConfig ntm input).right = input := by
  simp only [successors, List.mem_filterMap] at h
  obtain ⟨t, _, hsome⟩ := h
  by_cases hm : transMatches c t
  · rw [if_pos hm] at hsome
    obtain ⟨l, hl⟩ := applyTransition_right_shape c t c2 hsome
    refine ⟨?_, ?_, fun input => rfl⟩
    · rw [hl]
      simp
    · rw [hl]
      exact List.getLast?_concat l
  · rw [if_neg hm] at hsome
    exact absurd hsome (by simp)

/-- Witness for C10 on the single successor of M1's initial step. -/
theorem C10_witness :
    (⟨['a'], "q1", ['_']⟩ : Configuration).right ≠ []
    ∧ (⟨['a'], "q1", ['_']⟩ : Configuration).right.getLast? = some '_'
    ∧ ∀ input : List Char, (initConfig M1 input).right = input :=
  C10_enqueued_right_blank_tail M1 ⟨[], "q0", ['a']⟩ ⟨['a'], "q1", ['_']⟩ (by decide)

/-! ### Claim theorems: branching metric -/

/-- The state-diversity ratio exactly as the spec words it: total explored
configurations divided by the number of distinct states appearing in the
trace. -/
def specStateDiversity (explored : List Configuration) : ℚ :=
  (explored.length : ℚ) / (((explored.map (fun c => c.state)).toFinset.card : Nat) : ℚ)

/-- The per-step branching ratio exactly as the spec words it: total
explored configurations divided by the number of levels actually
processed, 0 when zero levels were processed. -/
def specPerStep (explored : List Configuration) (depth : Nat) : ℚ :=
  if depth = 0 then 0 else (explored.length : ℚ) / (depth : ℚ)

/-- C8: each variant's `calculate_nondeterminism` equals its configured
spec formula exactly (division is modelled over ℚ; note the Python
state-diversity variant would raise ZeroDivisionError on an empty trace,
where the ℚ model yields 0 = 0 / 0 on both sides). -/
theorem C8_metric_formulas (explored : List Configuration) (depth : Nat) :
    calculate_nondeterminismF explored = specStateDiversity explored
    ∧ calculate_nondeterminismT explored depth = specPerStep explored depth := by
  constructor
  · rfl
  · unfold calculate_nondeterminismT specPerStep
    rcases Nat.eq_zero_or_pos depth with h | h
    · simp [h]
    · rw [if_pos h, if_neg (Nat.pos_iff_ne_zero.mp h)]

/-! ### Claim theorems: termination policy -/

/-- A degenerate machine whose start, accept and reject states coincide;
the data model only requires the three states to be members of the state
set, so this machine is admissible. -/
def M2 : Machine := ⟨"q", "q", "q", []⟩

lemma runLevelT_early (ntm : Machine) (post : List Configuration) (c : Configuration) :
    ∀ pre explored out,
    (∀ x ∈ pre, x.state ≠ ntm.accept_state ∧ x.state ≠ ntm.reject_state) →
    ((c.state = ntm.accept_state →
        runLevelT ntm (pre ++ c :: post) explored out
          = .halted (explored ++ pre ++ [c]) "accept")
    ∧ (c.state ≠ ntm.accept_state → c.state = ntm.reject_state →
        runLevelT ntm (pre ++ c :: post) explored out
          = .halted (explored ++ pre ++ [c]) "reject")) := by
  intro pre
  induction pre with
  | nil =>
    intro explored out _
    constructor
    · intro hacc
      simp [runLevelT, hacc]
    · intro hnacc hrej
      simp only [List.nil_append, runLevelT]
      rw [if_neg hnacc, if_pos hrej]
      simp
  | cons p ps ih =>
    intro explored out hpre
    have hp := hpre p (by simp)
    have hps : ∀ x ∈ ps, x.state ≠ ntm.accept_state ∧ x.state ≠ ntm.reject_state :=
      fun x hx => hpre x (by simp [hx])
    have step : runLevelT ntm ((p :: ps) ++ c :: post) explored out
        = runLevelT ntm (ps ++ c :: post) (explored ++ [p]) (out ++ successors ntm p) := by
      simp [runLevelT, hp.1, hp.2]
    constructor
    · intro hacc
      rw [step, (ih (explored ++ [p]) (out ++ successors ntm p) hps).1 hacc]
      simp
    · intro hnacc hrej
      rw [step, (ih (explored ++ [p]) (out ++ successors ntm p) hps).2 hnacc hrej]
      simp

/-- C2 counterexample: on M2 (accept_state = reject_state) with empty
input, the single dequeued configuration's state equals reject_state, yet
the Eager variant reports "accept", not "reject" — the claim as stated
fails because the accept check is evaluated first. -/
theorem C2_counterexample :
    (initConfig M2 []).state = M2.reject_state
    ∧ simulate_ntmT M2 [] 5 = ([⟨[], "q", []⟩], "accept", 0)
    ∧ ("accept" : String) ≠ "reject" := by decide

/-- C2 (amended): in the Eager variant, once the configurations dequeued
earlier in the level are non-terminal, a dequeued accept-state
configuration stops the run at once and reports "accept" with the steps
taken so far, and a dequeued reject-state configuration whose state is
not the accept state (the accept check comes first) stops the run at once
and reports "reject" with the steps taken so far; the sibling
configurations after it in the level are never examined (the result does
not depend on `post`). -/
theorem C2_eager_stops (ntm : Machine) (pre post explored : List Configuration) (c : Configuration)
    (hpre : ∀ x ∈ pre, x.state ≠ ntm.accept_state ∧ x.state ≠ ntm.reject_state) :
    (c.state = ntm.accept_state →
      runLevelT ntm (pre ++ c :: post) explored []
        = .halted (explored ++ pre ++ [c]) "accept")
    ∧ (c.state ≠ ntm.accept_state → c.state = ntm.reject_state →
      runLevelT ntm (pre ++ c :: post) explored []
        = .halted (explored ++ pre ++ [c]) "reject")
    ∧ (∀ max_depth fuel steps e r, steps < max_depth → max_depth ≤ fuel + steps →
        runLevelT ntm (pre ++ c :: post) explored [] = .halted e r →
        simLoopT ntm max_depth fuel (pre ++ c :: post) explored steps = (e, r, steps)) := by
  refine ⟨(runLevelT_early ntm post c pre explored [] hpre).1,
          (runLevelT_early ntm post c pre explored [] hpre).2, ?_⟩
  intro max_depth fuel steps e r hlt hle hrun
  obtain ⟨f2, rfl⟩ : ∃ f2, fuel = f2 + 1 := ⟨fuel - 1, by omega⟩
  have hq : pre ++ c :: post ≠ [] := by simp
  simp only [simLoopT, if_pos (And.intro hq hlt), hrun]

/-- Witness for C2 on a concrete level with one non-terminal predecessor
and one unexamined sibling. -/
theorem C2_witness :
    runLevelT ⟨"q0", "qa", "qr", []⟩
        ([⟨[], "s1", []⟩] ++ (⟨[], "qa", []⟩ : Configuration) :: [⟨[], "s2", []⟩]) [] []
      = .halted ([] ++ [⟨[], "s1", []⟩] ++ [⟨[], "qa", []⟩]) "accept" :=
  (C2_eager_stops ⟨"q0", "qa", "qr", []⟩ [⟨[], "s1", []⟩] [⟨[], "s2", []⟩] []
    ⟨[], "qa", []⟩ (by decide)).1 rfl

lemma runLevelF_accept (ntm : Machine) (post : List Configuration) (c : Configuration) :
    ∀ pre explored out,
    (∀ x ∈ pre, x.state ≠ ntm.accept_state) →
    c.state = ntm.accept_state →
    runLevelF ntm (pre ++ c :: post) explored out = .accepted (explored ++ pre ++ [c]) := by
  intro pre
  induction pre with
  | nil =>
    intro explored out _ hacc
    simp [runLevelF, hacc]
  | cons p ps ih =>
    intro explored out hpre hacc
    have hp := hpre p (by simp)
    have hps : ∀ x ∈ ps, x.state ≠ ntm.accept_state := fun x hx => hpre x (by simp [hx])
    by_cases hr : p.state = ntm.reject_state
    · have step : runLevelF ntm ((p :: ps) ++ c :: post) explored out
          = runLevelF ntm (ps ++ c :: post) (explored ++ [p]) out := by
        simp only [List.cons_append, runLevelF]
        rw [if_neg hp, if_pos hr]
        rfl
      rw [step, ih (explored ++ [p]) out hps hacc]
      simp
    · have step : runLevelF ntm ((p :: ps) ++ c :: post) explored out
          = runLevelF ntm (ps ++ c :: post) (explored ++ [p]) (out ++ successors ntm p) := by
        simp [runLevelF, hp, hr]
      rw [step, ih (explored ++ [p]) (out ++ successors ntm p) hps hacc]
      simp

/-- C3 counterexample: on M2 (accept_state = reject_state) with empty
input, the single dequeued configuration's state equals reject_state, yet
the Exhaustive variant stops the whole run at once with acceptance
instead of merely closing that branch — the claim as stated fails because
the accept check is evaluated first. -/
theorem C3_counterexample :
    (initConfig M2 []).state = M2.reject_state
    ∧ simulate_ntmF M2 [] 5 = .accepted [⟨[], "q", []⟩] 0 := by decide

/-- C3 (amended): in the Exhaustive variant, a dequeued accept-state
configuration stops the whole run at once with acceptance (earlier
configurations of the level being non-accepting); a dequeued reject-state
configuration whose state is not the accept state (the accept check comes
first) is appended to the trace and produces no successors, and the rest
of the level is processed unchanged; the loop returns the timeout result
as soon as the frontier is empty or the depth bound is reached; and a
level that finds acceptance ends the run with the accept result and the
steps taken so far. -/
theorem C3_exhaustive_policy (ntm : Machine) (pre post rest explored out : List Configuration)
    (c : Configuration)
    (hpre : ∀ x ∈ pre, x.state ≠ ntm.accept_state) :
    (c.state = ntm.accept_state →
      runLevelF ntm (pre ++ c :: post) explored out = .accepted (explored ++ pre ++ [c]))
    ∧ (c.state ≠ ntm.accept_state → c.state = ntm.reject_state →
      runLevelF ntm (c :: rest) explored out = runLevelF ntm rest (explored ++ [c]) out)
    ∧ (∀ max_depth fuel q e steps, q = [] ∨ max_depth ≤ steps →
        simLoopF ntm max_depth fuel q e steps = .stopped e steps)
    ∧ (∀ max_depth fuel steps e2, steps < max_depth → max_depth ≤ fuel + steps →
        runLevelF ntm (pre ++ c :: post) explored [] = .accepted e2 →
        simLoopF ntm max_depth fuel (pre ++ c :: post) explored steps = .accepted e2 steps) := by
  refine ⟨runLevelF_accept ntm post c pre explored out hpre, ?_, ?_, ?_⟩
  · intro hnacc hrej
    simp only [runLevelF]
    rw [if_neg hnacc, if_pos hrej]
  · intro max_depth fuel q e steps hstop
    cases fuel with
    | zero => rfl
    | succ f2 =>
      have hneg : ¬(q ≠ [] ∧ steps < max_depth) := by
        rcases hstop with h | h
        · simp [h]
        · intro hc
          omega
      simp only [simLoopF, if_neg hneg]
  · intro max_depth fuel steps e2 hlt hle hrun
    obtain ⟨f2, rfl⟩ : ∃ f2, fuel = f2 + 1 := ⟨fuel - 1, by omega⟩
    have hq : pre ++ c :: post ≠ [] := by simp
    simp only [simLoopF, if_pos (And.intro hq hlt), hrun]

/-- Witness for C3 on a concrete level whose first configuration is
rejecting and whose second is accepting. -/
theorem C3_witness :
    runLevelF ⟨"q0", "qa", "qr", []⟩
        ([⟨[], "qr", []⟩] ++ (⟨[], "qa", []⟩ : Configuration) :: [⟨[], "s2", []⟩]) [] []
      = .accepted ([] ++ [⟨[], "qr", []⟩] ++ [⟨[], "qa", []⟩]) :=
  (C3_exhaustive_policy ⟨"q0", "qa", "qr", []⟩ [⟨[], "qr", []⟩] [⟨[], "s2", []⟩] [] [] []
    ⟨[], "qa", []⟩ (by decide)).1 rfl

/-! ### Claim theorems: termination and depth bound -/

lemma simLoopF_steps_le (ntm : Machine) (max_depth : Nat) :
    ∀ fuel queue explored steps, steps ≤ max_depth →
    (simLoopF ntm max_depth fuel queue explored steps).steps ≤ max_depth := by
  intro fuel
  induction fuel with
  | zero => intro q e s hs; exact hs
  | succ f2 ih =>
    intro q e s hs
    simp only [simLoopF]
    by_cases hg : q ≠ [] ∧ s < max_depth
    · rw [if_pos hg]
      cases hr : runLevelF ntm q e [] with
      | accepted e2 => exact hs
      | next e2 q2 => exact ih q2 e2 (s + 1) hg.2
    · rw [if_neg hg]
      exact hs

lemma simLoopT_steps_le (ntm : Machine) (max_depth : Nat) :
    ∀ fuel queue explored steps, steps ≤ max_depth →
    (simLoopT ntm max_depth fuel queue explored steps).2.2 ≤ max_depth := by
  intro fuel
  induction fuel with
  | zero => intro q e s hs; exact hs
  | succ f2 ih =>
    intro q e s hs
    simp only [simLoopT]
    by_cases hg : q ≠ [] ∧ s < max_depth
    · rw [if_pos hg]
      cases hr : runLevelT ntm q e [] with
      | halted e2 r2 => exact hs
      | next e2 q2 => exact ih q2 e2 (s + 1) hg.2
    · rw [if_neg hg]
      exact hs

/-- A machine whose only transition is a self-loop on the blank symbol
that never reaches the accept or reject state. -/
def M4 : Machine := ⟨"q0", "qa", "qr", [⟨"q0", ['_'], "q0", ['_'], ['R']⟩]⟩

/-- The explored trace of M4 run for 5 levels. -/
def E4 : List Configuration :=
  [⟨[], "q0", []⟩, ⟨['_'], "q0", ['_']⟩, ⟨['_', '_'], "q0", ['_']⟩,
   ⟨['_', '_', '_'], "q0", ['_']⟩, ⟨['_', '_', '_', '_'], "q0", ['_']⟩]

/-- C4: both variants of `simulate_ntm` are total functions of the
machine, input and depth bound (they are definable by structural
recursion, each level consuming one unit of the bound), the number of BFS
levels reported never exceeds `max_depth`, and the self-loop machine M4
run with depth bound 5 reports the timeout result with exactly 5 levels
processed and a non-empty trace, in both variants. -/
theorem C4_depth_bound_and_selfloop :
    (∀ ntm input max_depth, (simulate_ntmF ntm input max_depth).steps ≤ max_depth)
    ∧ (∀ ntm input max_depth, (simulate_ntmT ntm input max_depth).2.2 ≤ max_depth)
    ∧ simulate_ntmT M4 [] 5 = (E4, "timed out", 5)
    ∧ simulate_ntmF M4 [] 5 = .stopped E4 5
    ∧ E4 ≠ [] :=
  ⟨fun ntm input max_depth =>
      simLoopF_steps_le ntm max_depth max_depth [initConfig ntm input] [] 0 (Nat.zero_le _),
   fun ntm input max_depth =>
      simLoopT_steps_le ntm max_depth max_depth [initConfig ntm input] [] 0 (Nat.zero_le _),
   by decide, by decide, by decide⟩

/-! ### Claim theorems: branching accounting -/

/-- The queue contents at the start of BFS level `k` when no earlier level
dequeued a halting configuration: level 0 is the initial queue, and each
level holds the successors of the previous level's configurations, in
processing order. -/
def levelQueue (ntm : Machine) (q0 : List Configuration) : Nat → List Configuration
  | 0 => q0
  | k + 1 => (levelQueue ntm q0 k).flatMap (successors ntm)

lemma levelQueue_nil (ntm : Machine) : ∀ k, levelQueue ntm [] k = [] := by
  intro k
  induction k with
  | zero => rfl
  | succ k2 ih => simp [levelQueue, ih]

lemma levelQueue_shift (ntm : Machine) (q : List Configuration) :
    ∀ k, levelQueue ntm (q.flatMap (successors ntm)) k = levelQueue ntm q (k + 1) := by
  intro k
  induction k with
  | zero => rfl
  | succ k2 ih => simp only [levelQueue, ih]

lemma successors_length (ntm : Machine) (c : Configuration) :
    (successors ntm c).length = outDegree ntm c := by
  unfold successors outDegree
  induction ntm.transitions with
  | nil => rfl
  | cons t ts ih =>
    by_cases hm : transMatches c t
    · obtain ⟨c2, hc2⟩ := Option.isSome_iff_exists.mp (applyTransition_isSome c t)
      simp [List.filterMap_cons, List.filter_cons, hm, hc2, ih]
    · simp [List.filterMap_cons, List.filter_cons, hm, ih]

lemma flatMap_successors_length (ntm : Machine) :
    ∀ q : List Configuration, (q.flatMap (successors ntm)).length = sumOutDegree ntm q := by
  intro q
  induction q with
  | nil => rfl
  | cons a l ih =>
    simp only [List.flatMap_cons, List.length_append, sumOutDegree, List.map_cons,
      List.sum_cons] at *
    rw [successors_length, ih]

lemma runLevelF_no_halt (ntm : Machine) :
    ∀ q explored out,
    (∀ x ∈ q, x.state ≠ ntm.accept_state ∧ x.state ≠ ntm.reject_state) →
    runLevelF ntm q explored out = .next (explored ++ q) (out ++ q.flatMap (successors ntm)) := by
  intro q
  induction q with
  | nil =>
    intro e o _
    simp [runLevelF]
  | cons a l ih =>
    intro e o h
    have ha := h a (by simp)
    simp only [runLevelF, if_neg ha.1, if_neg ha.2]
    rw [ih (e ++ [a]) (o ++ successors ntm a) (fun x hx => h x (by simp [hx]))]
    simp [List.append_assoc]

lemma runLevelT_no_halt (ntm : Machine) :
    ∀ q explored out,
    (∀ x ∈ q, x.state ≠ ntm.accept_state ∧ x.state ≠ ntm.reject_state) →
    runLevelT ntm q explored out = .next (explored ++ q) (out ++ q.flatMap (successors ntm)) := by
  intro q
  induction q with
  | nil =>
    intro e o _
    simp [runLevelT]
  | cons a l ih =>
    intro e o h
    have ha := h a (by simp)
    simp only [runLevelT, if_neg ha.1, if_neg ha.2]
    rw [ih (e ++ [a]) (o ++ successors ntm a) (fun x hx => h x (by simp [hx]))]
    simp [List.append_assoc]

lemma simLoopF_explored_levels (ntm : Machine) (max_depth : Nat) :
    ∀ fuel q e steps, max_depth ≤ fuel + steps →
    (∀ j, j < max_depth - steps → ∀ x ∈ levelQueue ntm q j,
        x.state ≠ ntm.accept_state ∧ x.state ≠ ntm.reject_state) →
    (simLoopF ntm max_depth fuel q e steps).explored
      = e ++ (List.range (max_depth - steps)).flatMap (levelQueue ntm q) := by
  intro fuel
  induction fuel with
  | zero =>
    intro q e s hle _
    have h0 : max_depth - s = 0 := by omega
    rw [h0]
    simp [simLoopF, SimResultF.explored]
  | succ f2 ih =>
    intro q e s hle hlv
    by_cases hg : q ≠ [] ∧ s < max_depth
    · have h0 : ∀ x ∈ q, x.state ≠ ntm.accept_state ∧ x.state ≠ ntm.reject_state :=
        hlv 0 (by omega)
      simp only [simLoopF, if_pos hg]
      rw [runLevelF_no_halt ntm q e [] h0]
      have hlv2 : ∀ j, j < max_depth - (s + 1) →
          ∀ x ∈ levelQueue ntm (q.flatMap (successors ntm)) j,
          x.state ≠ ntm.accept_state ∧ x.state ≠ ntm.reject_state := by
        intro j hj x hx
        rw [levelQueue_shift] at hx
        exact hlv (j + 1) (by omega) x hx
      have IH := ih (q.flatMap (successors ntm)) (e ++ q) (s + 1) (by omega) hlv2
      have hms : max_depth - s = (max_depth - (s + 1)) + 1 := by omega
      have hfun : (fun j => levelQueue ntm q (Nat.succ j))
          = levelQueue ntm (q.flatMap (successors ntm)) :=
        funext fun j => (levelQueue_shift ntm q j).symm
      show (simLoopF ntm max_depth f2 ([] ++ q.flatMap (successors ntm)) (e ++ q) (s + 1)).explored
          = e ++ (List.range (max_depth - s)).flatMap (levelQueue ntm q)
      rw [List.nil_append, IH, hms, List.range_succ_eq_map, List.flatMap_cons, List.flatMap_map,
        hfun, List.append_assoc]
      rfl
    · simp only [simLoopF, if_neg hg, SimResultF.explored]
      rcases not_and_or.mp hg with hq | hs
      · rw [not_not] at hq
        subst hq
        have hnil : (List.range (max_depth - s)).flatMap (levelQueue ntm ([] : List Configuration))
            = [] :=
          List.flatMap_eq_nil_iff.mpr (fun x _ => levelQueue_nil ntm x)
        rw [hnil, List.append_nil]
      · have h0 : max_depth - s = 0 := by omega
        rw [h0]
        simp

lemma simLoopT_explored_levels (ntm : Machine) (max_depth : Nat) :
    ∀ fuel q e steps, max_depth ≤ fuel + steps →
    (∀ j, j < max_depth - steps → ∀ x ∈ levelQueue ntm q j,
        x.state ≠ ntm.accept_state ∧ x.state ≠ ntm.reject_state) →
    (simLoopT ntm max_depth fuel q e steps).1
      = e ++ (List.range (max_depth - steps)).flatMap (levelQueue ntm q) := by
  intro fuel
  induction fuel with
  | zero =>
    intro q e s hle _
    have h0 : max_depth - s = 0 := by omega
    rw [h0]
    simp [simLoopT]
  | succ f2 ih =>
    intro q e s hle hlv
    by_cases hg : q ≠ [] ∧ s < max_depth
    · have h0 : ∀ x ∈ q, x.state ≠ ntm.accept_state ∧ x.state ≠ ntm.reject_state :=
        hlv 0 (by omega)
      simp only [simLoopT, if_pos hg]
      rw [runLevelT_no_halt ntm q e [] h0]
      have hlv2 : ∀ j, j < max_depth - (s + 1) →
          ∀ x ∈ levelQueue ntm (q.flatMap (successors ntm)) j,
          x.state ≠ ntm.accept_state ∧ x.state ≠ ntm.reject_state := by
        intro j hj x hx
        rw [levelQueue_shift] at hx
        exact hlv (j + 1) (by omega) x hx
      have IH := ih (q.flatMap (successors ntm)) (e ++ q) (s + 1) (by omega) hlv2
      have hms : max_depth - s = (max_depth - (s + 1)) + 1 := by omega
      have hfun : (fun j => levelQueue ntm q (Nat.succ j))
          = levelQueue ntm (q.flatMap (successors ntm)) :=
        funext fun j => (levelQueue_shift ntm q j).symm
      show (simLoopT ntm max_depth f2 ([] ++ q.flatMap (successors ntm)) (e ++ q) (s + 1)).1
          = e ++ (List.range (max_depth - s)).flatMap (levelQueue ntm q)
      rw [List.nil_append, IH, hms, List.range_succ_eq_map, List.flatMap_cons, List.flatMap_map,
        hfun, List.append_assoc]
      rfl
    · simp only [simLoopT, if_neg hg]
      rcases not_and_or.mp hg with hq | hs
      · rw [not_not] at hq
        subst hq
        have hnil : (List.range (max_depth - s)).flatMap (levelQueue ntm ([] : List Configuration))
            = [] :=
          List.flatMap_eq_nil_iff.mpr (fun x _ => levelQueue_nil ntm x)
        rw [hnil, List.append_nil]
      · have h0 : max_depth - s = 0 := by omega
        rw [h0]
        simp

/-- A deterministic two-step machine: q0 steps to q1, q1 steps to q2, on
blank input. -/
def M5 : Machine := ⟨"q0", "qa", "qr",
  [⟨"q0", ['_'], "q1", ['_'], ['R']⟩, ⟨"q1", ['_'], "q2", ['_'], ['R']⟩]⟩

/-- C5 counterexample: on M5 with empty input, at the end of level 2 the
total number of explored configurations is 3, while the sum of
out-degrees of the configurations processed in level 1 plus 1 is 2 — the
claimed per-level equation ignores the configurations accumulated before
level k-1. -/
theorem C5_counterexample :
    (simulate_ntmF M5 [] 3).steps = 3
    ∧ (simulate_ntmF M5 [] 3).explored.length = 3
    ∧ sumOutDegree M5 (levelQueue M5 [initConfig M5 []] 1) + 1 = 2
    ∧ (simulate_ntmF M5 [] 3).explored.length
        ≠ sumOutDegree M5 (levelQueue M5 [initConfig M5 []] 1) + 1 := by decide

/-- C5 (amended): as long as no accept- or reject-state configuration is
dequeued, the explored trace after k BFS levels is exactly the
concatenation of the level frontiers 0..k-1 (in both variants), and the
total number of explored configurations at the end of level k equals 1
(the initial configuration of level 0) plus the sum of out-degrees
(number of matching transitions) of the configurations processed in all
levels before k — not of level k-1 alone. -/
theorem C5_branching_accounting (ntm : Machine) (input : List Char) (k : Nat)
    (h : ∀ j, j < k → ∀ x ∈ levelQueue ntm [initConfig ntm input] j,
        x.state ≠ ntm.accept_state ∧ x.state ≠ ntm.reject_state) :
    (simulate_ntmF ntm input k).explored
        = (List.range k).flatMap (levelQueue ntm [initConfig ntm input])
    ∧ (simulate_ntmT ntm input k).1
        = (List.range k).flatMap (levelQueue ntm [initConfig ntm input])
    ∧ ((List.range (k + 1)).flatMap (levelQueue ntm [initConfig ntm input])).length
        = 1 + ((List.range k).map
            (fun j => sumOutDegree ntm (levelQueue ntm [initConfig ntm input] j))).sum := by
  refine ⟨?_, ?_, ?_⟩
  · have hmain := simLoopF_explored_levels ntm k k [initConfig ntm input] [] 0
      (by omega) (by simpa using h)
    simpa [simulate_ntmF] using hmain
  · have hmain := simLoopT_explored_levels ntm k k [initConfig ntm input] [] 0
      (by omega) (by simpa using h)
    simpa [simulate_ntmT] using hmain
  · clear h
    induction k with
    | zero => rfl
    | succ k2 ih =>
      rw [List.range_succ, List.flatMap_append, List.length_append, ih]
      rw [List.range_succ, List.map_append, List.sum_append]
      simp only [List.flatMap_cons, List.flatMap_nil, List.append_nil, List.map_cons,
        List.map_nil, List.sum_cons, List.sum_nil, levelQueue, flatMap_successors_length]
      omega

/-- Witness for C5 on the self-loop machine M4 after 2 levels. -/
theorem C5_witness :
    (simulate_ntmF M4 [] 2).explored = (List.range 2).flatMap (levelQueue M4 [initConfig M4 []])
    ∧ (simulate_ntmT M4 [] 2).1 = (List.range 2).flatMap (levelQueue M4 [initConfig M4 []])
    ∧ ((List.range 3).flatMap (levelQueue M4 [initConfig M4 []])).length
        = 1 + ((List.range 2).map
            (fun j => sumOutDegree M4 (levelQueue M4 [initConfig M4 []] j))).sum :=
  C5_branching_accounting M4 [] 2 (by decide)
